import Mathlib

/-!
Verification of the zygen Hierarchy Reconstruction & Resolution Engine.

Shallow embedding of the core data model and algorithms:
* `src/core.rs`: `ZgApi`, `ZgResource`, `ZgMethod`, `find_resource`,
  `select_resource`.
* `src/update.rs`: `convert_resource`, `convert_method`, `extract_api`,
  `update_resource_paths`, `build_parent_resources`, `is_valid_flat_path`,
  `insert_child_resource`, `rebuild_hierarchy`.
* `src/flavors/core_flavors.rs` and `src/flavors/update_flavors.rs`:
  the per-service selection and segment-correction strategies.

Rust strings are modelled as Lean `String`, with the string primitives the
code uses (`ends_with`, `starts_with`, `contains`, `split`, `split_once`,
`join`) re-implemented over `String.data` so that they reduce inside the
kernel.  Rust `Vec` becomes `List`; `Option` stays `Option`; the unbounded
reassembly `while` loop becomes a fuel-indexed function returning `none`
when the fuel is exhausted.  `HashMap`/`HashSet` collections are modelled as
entry lists whose order stands for the (run-dependent) iteration order of
the hash table; `HashSet` deduplication becomes first-occurrence `eraseDups`.

Fields of `ZgMethod` (`query_params`, `request_data_schema`) and `ZgApi`
(`schemas`) that the hierarchy/resolution algorithms never inspect and only
carry through unchanged are omitted from the embedding.
-/

-- ---------------------------------------------------------------------
-- String primitives (counterparts of the Rust `str` methods used by zygen)
-- ---------------------------------------------------------------------

/-- Rust `str::ends_with(&str)`: suffix test on the character sequence. -/
def sEndsWith (s suffix : String) : Bool :=
  suffix.data.isSuffixOf s.data

/-- Rust `str::starts_with(&str)`: prefix test on the character sequence. -/
def sStartsWith (s pre : String) : Bool :=
  pre.data.isPrefixOf s.data

/-- Rust `str::starts_with(char)`. -/
def sStartsWithChar (s : String) (c : Char) : Bool :=
  match s.data with
  | [] => false
  | d :: _ => d == c

/-- Rust `str::ends_with(char)`. -/
def sEndsWithChar (s : String) (c : Char) : Bool :=
  match s.data.getLast? with
  | none => false
  | some d => d == c

/-- Rust `str::contains(char)`. -/
def sContainsChar (s : String) (c : Char) : Bool :=
  s.data.contains c

/-- Auxiliary substring search on character lists. -/
def subOccurs (pat : List Char) : List Char → Bool
  | [] => pat.isEmpty
  | c :: rest => pat.isPrefixOf (c :: rest) || subOccurs pat rest

/-- Rust `str::contains(&str)`: substring containment. -/
def sContainsSub (s pat : String) : Bool :=
  subOccurs pat.data s.data

/-- Rust `str::split(char)` on a character list (keeps empty segments). -/
def splitCharAux (c : Char) : List Char → List (List Char)
  | [] => [[]]
  | x :: xs =>
    match splitCharAux c xs with
    | [] => [[x]]
    | y :: ys => if x == c then [] :: y :: ys else (x :: y) :: ys

/-- Rust `str::split(char)` collected into a list of strings. -/
def splitChar (c : Char) (s : String) : List String :=
  (splitCharAux c s.data).map String.mk

/-- Auxiliary for `split_once`: split at the first occurrence of `c`. -/
def splitOnceAux (c : Char) : List Char → Option (List Char × List Char)
  | [] => none
  | x :: xs =>
    if x == c then some ([], xs)
    else (splitOnceAux c xs).map (fun p => (x :: p.1, p.2))

/-- Rust `str::split_once(char)`. -/
def splitOnce (c : Char) (s : String) : Option (String × String) :=
  (splitOnceAux c s.data).map (fun p => (String.mk p.1, String.mk p.2))

/-- Rust `Vec<String>::join(".")` / `Iterator::join(".")`. -/
def joinDot : List String → String
  | [] => ""
  | [p] => p
  | p :: rest => p ++ "." ++ joinDot rest

-- ---------------------------------------------------------------------
-- Data model (src/core.rs)
-- ---------------------------------------------------------------------

/-- The `core::ZgMethod` (src/core.rs:110-120); `query_params` and
`request_data_schema` are opaque payloads never read by the algorithms
modelled here and are omitted. -/
structure ZgMethod where
  id : String
  original_id : Option String
  name : String
  flat_path : String
  http_method : String
  deriving Repr, DecidableEq

/-- The `core::ZgResource` (src/core.rs:98-107).  A nested inductive because
`resources` recursively holds sub-resources. -/
inductive ZgResource : Type where
  | mk (name : String) (parent_path : Option String) (path : Option String)
       (methods : List ZgMethod) (resources : Option (List ZgResource)) : ZgResource

def ZgResource.name : ZgResource → String
  | .mk n _ _ _ _ => n

def ZgResource.parent_path : ZgResource → Option String
  | .mk _ pp _ _ _ => pp

def ZgResource.path : ZgResource → Option String
  | .mk _ _ p _ _ => p

def ZgResource.methods : ZgResource → List ZgMethod
  | .mk _ _ _ ms _ => ms

def ZgResource.resources : ZgResource → Option (List ZgResource)
  | .mk _ _ _ _ rs => rs

/-- The `core::ZgApi` (src/core.rs:27-35); the `schemas` table is never read by
the algorithms modelled here and is omitted. -/
structure ZgApi where
  id : String
  name : String
  version : String
  revision : String
  base_url : String
  resources : List ZgResource

-- ---------------------------------------------------------------------
-- Segment-correction flavors (src/flavors/update_flavors.rs)
-- ---------------------------------------------------------------------

/-- The `update_flavors::transform_storage_parents` (update_flavors.rs:20-40). -/
def transformStorageParents (resource_name : String) (segments : List String) :
    List String :=
  match resource_name with
  | "buckets" => ["projects"]
  | "objects" | "folders" | "managedFolders" => ["projects", "buckets"]
  | "projects" => segments
  | _ =>
    ("projects" :: segments).map fun nm =>
      match nm with
      | "b" => "buckets"
      | "o" => "objects"
      | _ => nm

/-- The `update_flavors::transform_compute_parents` (update_flavors.rs:43-64). -/
def transformComputeParents (resource_name : String) (segments : List String) :
    List String :=
  match resource_name with
  | "globalOrganizationOperations" => []
  | "globalAddresses" | "globalNetworkEndpointGroups" | "globalOperations"
  | "globalForwardingRules" | "networkFirewallPolicies" => ["projects"]
  | "instanceGroupManagerResizeRequests" =>
    ["projects", "zones", "instanceGroupManagers"]
  | "zoneOperations" => ["projects", "zones"]
  | _ =>
    if sStartsWith resource_name "region" && resource_name != "regions" then
      ["projects", "regions"]
    else
      segments.filter fun seg => seg != "global" && seg != "locations"

/-- The `update_flavors::transform_sqladmin_parents` (update_flavors.rs:68-70). -/
def transformSqladminParents (segments : List String) : List String :=
  segments.filter fun seg => seg != "sql"

-- ---------------------------------------------------------------------
-- Parent inference (src/update.rs)
-- ---------------------------------------------------------------------

/-- The `update::is_valid_flat_path` (update.rs:513-517). -/
def isValidFlatPath (service_name : String) (flat_path : String) : Bool :=
  !(sContainsChar flat_path ':' ||
    (service_name == "compute" && sContainsSub flat_path "/aggregated/"))

/-- The per-flat-path tokenization inside `build_parent_resources`
(update.rs:479-494): split on `/`, drop placeholder segments, drop the last
segment, drop segments equal to the version token. -/
def flatPathSegments (version flat_path : String) : List String :=
  let segments := (splitChar '/' flat_path).filter fun segment =>
    !sStartsWithChar segment '{' && !sEndsWithChar segment '}'
  (segments.dropLast).filter fun segment => segment != version

/-- The `update::build_parent_resources` (update.rs:463-510).  The method
`flat_path`s are collected into a `HashSet` in the Rust code; here the
deduplicated list in first-occurrence order stands for one possible
iteration order of that set. -/
def buildParentResources (service_name version resource_name : String)
    (methods : List ZgMethod) : List String :=
  let flat_paths :=
    ((methods.map fun m => m.flat_path).filter
      (isValidFlatPath service_name)).eraseDups
  let segments :=
    ((flat_paths.map (flatPathSegments version)).find? fun segs =>
      match segs.getLast? with
      | none => true
      | some last => last != resource_name).getD []
  match service_name with
  | "storage" => transformStorageParents resource_name segments
  | "compute" => transformComputeParents resource_name segments
  | "sqladmin" => transformSqladminParents segments
  | _ => segments

-- ---------------------------------------------------------------------
-- Phase 1: update_resource_paths (src/update.rs:320-382)
-- ---------------------------------------------------------------------

mutual

/-- The inner `recursive` of `update::update_resource_paths`
(update.rs:323-375), applied to one resource with the inherited parent
path. -/
def updateResource (service_name version : String)
    (inherited_parent_path : Option String) : ZgResource → ZgResource
  | .mk name _ _ methods subs =>
    let parent_resource_names :=
      buildParentResources service_name version name methods
    let parent_path : Option String :=
      inherited_parent_path.orElse fun _ =>
        if parent_resource_names.isEmpty then none
        else some (joinDot (service_name :: parent_resource_names))
    let resource_path : String :=
      match parent_path with
      | some pp => pp ++ "." ++ name
      | none => service_name ++ "." ++ name
    let methods' := methods.map fun m =>
      { m with original_id := some m.id, id := resource_path ++ "." ++ m.name }
    .mk name parent_path (some resource_path) methods'
      (updateForest service_name version resource_path subs)

/-- Recursion of `update_resource_paths` into the optional sub-resource
list, passing the parent's new path down. -/
def updateForest (service_name version parentPath : String) :
    Option (List ZgResource) → Option (List ZgResource)
  | none => none
  | some rs => some (updateList service_name version parentPath rs)

/-- Recursion of `update_resource_paths` over a sub-resource list. -/
def updateList (service_name version parentPath : String) :
    List ZgResource → List ZgResource
  | [] => []
  | r :: rest =>
    updateResource service_name version (some parentPath) r ::
      updateList service_name version parentPath rest

end

/-- The `update::update_resource_paths` (update.rs:320-382) given the service
name and version already split out of the api id. -/
def updateResourcePaths (service_name version : String) (api : ZgApi) : ZgApi :=
  { api with resources :=
      api.resources.map (updateResource service_name version none) }

-- ---------------------------------------------------------------------
-- Phase 2: tree reassembly (src/update.rs:272-317, 389-438)
-- ---------------------------------------------------------------------

/-- The `find`/merge step of `insert_child_resource` (update.rs:402-413):
merge the methods of `c` into the first sub-resource with the same path,
or report `none` when no sub-resource has that path. -/
def mergeIntoFirst : List ZgResource → ZgResource → Option (List ZgResource)
  | [], _ => none
  | r :: rest, c =>
    if r.path = c.path then
      some (.mk r.name r.parent_path r.path (r.methods ++ c.methods)
        r.resources :: rest)
    else
      (mergeIntoFirst rest c).map (r :: ·)

/-- The `update::insert_child_resource` (update.rs:389-438).  Returns the
modified resource list on success (`true` in Rust) and `none` on failure
(`false` in Rust; the Rust code performs no mutation in that case). -/
def insertChildResource : List ZgResource → ZgResource → Option (List ZgResource)
  | [], _ => none
  | .mk nm pp pth ms rs :: rest, c =>
    if pth = c.parent_path then
      let subs := rs.getD []              -- `get_or_insert(Vec::new())`
      let subs' := (mergeIntoFirst subs c).getD (subs ++ [c])
      some (.mk nm pp pth ms (some subs') :: rest)
    else
      match rs, pth with
      | some children, some resource_path =>
        if (match c.parent_path with
            | some p => sStartsWith p resource_path
            | none => false) then
          match insertChildResource children c with
          | some children' =>
            some (.mk nm pp pth ms (some children') :: rest)
          | none =>
            (insertChildResource rest c).map (.mk nm pp pth ms rs :: ·)
        else (insertChildResource rest c).map (.mk nm pp pth ms rs :: ·)
      | _, _ => (insertChildResource rest c).map (.mk nm pp pth ms rs :: ·)

/-- The reassembly `while let Some(child_res) = children_to_insert.pop()`
loop of `rebuild_hierarchy` (update.rs:306-313): pop from the back, try to
insert, re-queue at the front on failure.  The Rust loop is unbounded; the
fuel counts loop iterations and `none` means the loop has not finished
within `fuel` iterations. -/
def insertLoop : Nat → List ZgResource → List ZgResource →
    Option (List ZgResource)
  | _, tree, [] => some tree
  | 0, _, _ :: _ => none
  | fuel + 1, tree, w :: ws =>
    let c := (w :: ws).getLast (List.cons_ne_nil w ws)
    let rest := (w :: ws).dropLast
    match insertChildResource tree c with
    | some tree' => insertLoop fuel tree' rest
    | none => insertLoop fuel tree (c :: rest)

/-- The `update::rebuild_hierarchy` (update.rs:272-317).  `split_once(':')` on
the api id recovers the service name and version (the Rust code `unwrap`s;
an id without `:` is modelled as failure). -/
def rebuildHierarchy (fuel : Nat) (api : ZgApi) : Option ZgApi :=
  match splitOnce ':' api.id with
  | none => none
  | some (service_name, version) =>
    let api1 := updateResourcePaths service_name version api
    let children_to_insert :=
      api1.resources.filter fun r => r.parent_path.isSome
    let tops := api1.resources.filter fun r => r.parent_path.isNone
    (insertLoop fuel tops children_to_insert).map fun t =>
      { api1 with resources := t }

-- ---------------------------------------------------------------------
-- Normalizer (src/update.rs:96-237)
-- ---------------------------------------------------------------------

/-- The `discovery::Method` (discovery.rs:86-97) restricted to the fields the
Normalizer reads. -/
structure RawMethod where
  id : String
  http_method : String
  path : String
  flat_path : Option String
  deriving Repr, DecidableEq

/-- The `discovery::Resource` (discovery.rs:79-82).  The Rust field type is
`Option<HashMap<String, _>>`; it is modelled as the entry list in this
run's hash-map iteration order, with `None`/missing maps as `[]`
(the code reads them through `unwrap_or_default`). -/
inductive RawResource : Type where
  | mk (methods : List (String × RawMethod))
       (resources : List (String × RawResource)) : RawResource

def RawResource.methods : RawResource → List (String × RawMethod)
  | .mk ms _ => ms

def RawResource.resources : RawResource → List (String × RawResource)
  | .mk _ rs => rs

/-- The `discovery::ApiDescription` (discovery.rs:60-77) restricted to the
fields `extract_api` reads. -/
structure ApiDescription where
  id : String
  name : String
  version : String
  revision : String
  base_url : String
  resources : List (String × RawResource)

/-- The `update::convert_method` (update.rs:205-237) without the opaque
query-parameter and request-schema payloads. -/
def convertMethod (method_name : String) (m : RawMethod) : ZgMethod :=
  { id := m.id
    original_id := none
    name := method_name
    flat_path := m.flat_path.getD m.path
    http_method := m.http_method }

mutual

/-- The `update::convert_resource` (update.rs:150-202). -/
def convertResource (service_name : String) (resource_name : String)
    (raw : RawResource) (parent_path : Option String) : ZgResource :=
  match raw with
  | .mk raw_methods raw_subs =>
    let methods := raw_methods.map fun nm => convertMethod nm.1 nm.2
    let path : Option String :=
      match methods.head? with
      | some m => some (joinDot (splitChar '.' m.id).dropLast)
      | none =>
        match parent_path with
        | some pp => some (pp ++ "." ++ resource_name)
        | none => some (service_name ++ "." ++ resource_name)
    .mk resource_name parent_path path methods
      (some (convertEntries service_name path raw_subs))

/-- Recursion of `convert_resource` over the sub-resource entry list. -/
def convertEntries (service_name : String) (parent_path : Option String) :
    List (String × RawResource) → List ZgResource
  | [] => []
  | e :: rest =>
    convertResource service_name e.1 e.2 parent_path ::
      convertEntries service_name parent_path rest

end

/-- The `update::extract_api` (update.rs:96-134) applied to an already-parsed
description; the trailing per-service dispatch to `rebuild_hierarchy` uses
the given fuel for the reassembly loop. -/
def extractApi (fuel : Nat) (desc : ApiDescription) : Option ZgApi :=
  let resources :=
    desc.resources.map fun nr => convertResource desc.name nr.1 nr.2 none
  let api : ZgApi :=
    { id := desc.id, name := desc.name, version := desc.version
      revision := desc.revision, base_url := desc.base_url
      resources := resources }
  match api.id with
  | "bigquery:v2" => rebuildHierarchy fuel api
  | "compute:v1" => rebuildHierarchy fuel api
  | "sqladmin:v1" | "sqladmin:v1beta4" => rebuildHierarchy fuel api
  | "storage:v1" => rebuildHierarchy fuel api
  | _ => some api

-- ---------------------------------------------------------------------
-- Resolver (src/core.rs:275-352) and selection flavors
-- ---------------------------------------------------------------------

/-- Errors produced by the resolver (src/core.rs:303-312): the Rust code
returns formatted message strings; the two shapes are distinguished here
with the data each message interpolates. -/
inductive ZgError : Type where
  | resourceNotFound (resource_path api_id : String) : ZgError
  | selectionFailed (resource_path : String) : ZgError
  deriving Repr, DecidableEq

mutual

/-- One resource's contribution inside the inner `recursive` of
`find_resource` (src/core.rs:282-298): match on the own path, then recurse
into sub-resources. -/
def collectFoundR (resource_path : String) : ZgResource → List ZgResource
  | .mk name pp path ms rs =>
    (match path with
     | some p =>
       if sEndsWith p resource_path then [ZgResource.mk name pp path ms rs]
       else []
     | none => []) ++ collectFoundO resource_path rs

/-- The `recursive` of `find_resource` on an optional sub-resource list. -/
def collectFoundO (resource_path : String) :
    Option (List ZgResource) → List ZgResource
  | none => []
  | some rs => collectFoundL resource_path rs

/-- The `recursive` of `find_resource` (src/core.rs:282-298) over a resource
list, in depth-first traversal order. -/
def collectFoundL (resource_path : String) :
    List ZgResource → List ZgResource
  | [] => []
  | r :: rest =>
    collectFoundR resource_path r ++ collectFoundL resource_path rest

end

/-- The Rust flavors read `r.path.as_ref().unwrap()`; candidates coming
from `find_resource` always carry a path, and a missing path is modelled
as the empty string. -/
def pathD (r : ZgResource) : String :=
  r.path.getD ""

/-- The `core_flavors::select_resource_container` (core_flavors.rs:18-30). -/
def selectResourceContainer (found : List ZgResource) : Option ZgResource :=
  (found.find? fun r =>
    sContainsSub (pathD r) "container.projects.locations.clusters").orElse
    fun _ => found.head?

/-- The `core_flavors::select_resource_dataflow` (core_flavors.rs:54-80). -/
def selectResourceDataflow (resource_path : String)
    (found : List ZgResource) : Option ZgResource :=
  if sEndsWith resource_path "templates" || sEndsWith resource_path "jobs" ||
     sEndsWith resource_path "debug" || sEndsWith resource_path "messages" ||
     sEndsWith resource_path "workItems" then
    (found.find? fun r => sContainsSub (pathD r) "locations").orElse
      fun _ => found.getLast?
  else
    (found.find? fun r => sContainsSub (pathD r) "locations.snapshots").orElse
      fun _ => found.getLast?

/-- The `core_flavors::select_resource_spanner` (core_flavors.rs:105-112). -/
def selectResourceSpanner (found : List ZgResource) : Option ZgResource :=
  (found.find? fun r => sContainsSub (pathD r) "instances.operations").orElse
    fun _ => found.getLast?

/-- The `core::select_resource` (src/core.rs:323-352). -/
def selectResource (api_id resource_path : String)
    (found : List ZgResource) : Option ZgResource :=
  if found.length ≤ 1 then found.head?
  else
    match api_id with
    | "container:v1" => selectResourceContainer found
    | "dataflow:v1b3" => selectResourceDataflow resource_path found
    | "spanner:v1" => selectResourceSpanner found
    | _ => found.getLast?

/-- The `core::find_resource` (src/core.rs:275-313). -/
def findResource (api_id : String) (resources : List ZgResource)
    (resource_path : String) : Except ZgError ZgResource :=
  let found := collectFoundL resource_path resources
  if found.isEmpty then
    .error (.resourceNotFound resource_path api_id)
  else
    match selectResource api_id resource_path found with
    | some r => .ok r
    | none => .error (.selectionFailed resource_path)

-- ---------------------------------------------------------------------
-- Specification-side definition (for refinement comparison)
-- ---------------------------------------------------------------------

/-- The dot-delimited suffix rule of the specification (§4.4/§8): the
matched suffix starts either at position 0 of the canonical path or
immediately after a `.` character.  This definition follows the spec's
words and is compared against the `ends_with` matching the code performs. -/
def specDotDelimitedSuffix (path suffix : String) : Bool :=
  path == suffix || sEndsWith path ("." ++ suffix)

-- ---------------------------------------------------------------------
-- Concrete instances used by the theorems below
-- ---------------------------------------------------------------------

/-- A resource literally named `zclusters` (canonical path `zclusters`):
its path ends with the raw substring `clusters` without a dot boundary. -/
def zclustersRes : ZgResource :=
  .mk "zclusters" none (some "zclusters") [] none

/-- The regional `clusters` resource of `container:v1`. -/
def regionalClustersRes : ZgResource :=
  .mk "clusters" (some "container.projects.locations")
    (some "container.projects.locations.clusters") [] none

/-- The zonal `clusters` resource of `container:v1`. -/
def zonalClustersRes : ZgResource :=
  .mk "clusters" (some "container.projects.zones")
    (some "container.projects.zones.clusters") [] none

/-- The flat `datasets` resource of a bigquery-like service, before the
hierarchy rebuild (mirrors `test_update_resource_paths` in update.rs). -/
def bqDatasetsRes : ZgResource :=
  .mk "datasets" none (some "bigquery.datasets")
    [{ id := "bigquery.datasets.list", original_id := none, name := "list"
       flat_path := "projects/{projectsId}/datasets", http_method := "GET" }]
    none

/-- A `bigquery:v2` input whose sole resource infers parent
`bigquery.projects`, while no `projects` resource exists anywhere: the
inferred parent path matches no node of the final tree. -/
def orphanBigqueryApi : ZgApi :=
  { id := "bigquery:v2", name := "bigquery", version := "v2"
    revision := "20241111", base_url := "https://bigquery.googleapis.com/"
    resources := [bqDatasetsRes] }

/-- A well-formed flat `bigquery:v2` input: `projects` exists as a
top-level resource, `datasets` is declared flat but belongs under it. -/
def bqTestApi : ZgApi :=
  { id := "bigquery:v2", name := "bigquery", version := "v2"
    revision := "20241111", base_url := "https://bigquery.googleapis.com/"
    resources :=
      [ .mk "projects" none (some "bigquery.projects")
          [{ id := "bigquery.projects.getServiceAccount", original_id := none
             name := "getServiceAccount"
             flat_path := "projects/{projectsId}/serviceAccount"
             http_method := "GET" }]
          none,
        bqDatasetsRes ] }

/-- The tree produced by one hierarchy rebuild of `bqTestApi`: `datasets`
re-attached under `projects`, paths and method ids rewritten, the original
method ids preserved in `original_id`. -/
def bqRebuilt : ZgApi :=
  { id := "bigquery:v2", name := "bigquery", version := "v2"
    revision := "20241111", base_url := "https://bigquery.googleapis.com/"
    resources :=
      [ .mk "projects" none (some "bigquery.projects")
          [{ id := "bigquery.projects.getServiceAccount"
             original_id := some "bigquery.projects.getServiceAccount"
             name := "getServiceAccount"
             flat_path := "projects/{projectsId}/serviceAccount"
             http_method := "GET" }]
          (some
            [ .mk "datasets" (some "bigquery.projects")
                (some "bigquery.projects.datasets")
                [{ id := "bigquery.projects.datasets.list"
                   original_id := some "bigquery.datasets.list"
                   name := "list"
                   flat_path := "projects/{projectsId}/datasets"
                   http_method := "GET" }]
                none ]) ] }

/-- The tree produced by rebuilding `bqRebuilt` a second time: identical to
`bqRebuilt` except that the `datasets.list` method's `original_id` now
records the first run's rewritten id instead of the pre-rebuild id. -/
def bqRebuiltTwice : ZgApi :=
  { id := "bigquery:v2", name := "bigquery", version := "v2"
    revision := "20241111", base_url := "https://bigquery.googleapis.com/"
    resources :=
      [ .mk "projects" none (some "bigquery.projects")
          [{ id := "bigquery.projects.getServiceAccount"
             original_id := some "bigquery.projects.getServiceAccount"
             name := "getServiceAccount"
             flat_path := "projects/{projectsId}/serviceAccount"
             http_method := "GET" }]
          (some
            [ .mk "datasets" (some "bigquery.projects")
                (some "bigquery.projects.datasets")
                [{ id := "bigquery.projects.datasets.list"
                   original_id := some "bigquery.projects.datasets.list"
                   name := "list"
                   flat_path := "projects/{projectsId}/datasets"
                   http_method := "GET" }]
                none ]) ] }

/-- First pending `instances` resource (method `get`), as in the
`test_insert_child_resource_merge_methods_instances` test of update.rs. -/
def sqlInstances1 : ZgResource :=
  .mk "instances" (some "projects") (some "projects.instances")
    [{ id := "sqladmin.projects.instances.get", original_id := none
       name := "get", flat_path := "v1/projects/{project}/instances/{instance}"
       http_method := "GET" }]
    none

/-- Second pending `instances` resource (method `performDiskShrink`) with
the same canonical path and parent path as `sqlInstances1`. -/
def sqlInstances2 : ZgResource :=
  .mk "instances" (some "projects") (some "projects.instances")
    [{ id := "sqladmin.projects.instances.performDiskShrink"
       original_id := none, name := "performDiskShrink"
       flat_path := "v1/projects/{project}/instances/{instance}/performDiskShrink"
       http_method := "POST" }]
    none

/-- A raw method whose id prefix names branch `a`. -/
def rawMethodA : RawMethod :=
  { id := "container.a.res.get", http_method := "GET"
    path := "v1/a/res", flat_path := some "v1/a/res" }

/-- A raw method whose id prefix names branch `b`. -/
def rawMethodB : RawMethod :=
  { id := "container.b.res.list", http_method := "GET"
    path := "v1/b/res", flat_path := some "v1/b/res" }

/-- A `container:v1` discovery document with a single resource `res` whose
method map enumerates in the given order: the same raw document observed
under two different hash-map iteration orders is represented by two
permutations of `ms`. -/
def rawContainerDoc (ms : List (String × RawMethod)) : ApiDescription :=
  { id := "container:v1", name := "container", version := "v1"
    revision := "20241111", base_url := "https://container.googleapis.com/"
    resources := [("res", .mk ms [])] }

-- ---------------------------------------------------------------------
-- Derived notions used to state and prove the idempotency and
-- method-provenance properties
-- ---------------------------------------------------------------------

/-- Overwrite a method's `original_id` with its current `id` (what one more
pass of `update_resource_paths` does to an already-canonical method). -/
def setOriginalIdM (m : ZgMethod) : ZgMethod :=
  { m with original_id := some m.id }

mutual

/-- Apply `setOriginalIdM` to every method of a resource tree. -/
def setOriginalIdsR : ZgResource → ZgResource
  | .mk nm pp p ms rs =>
    .mk nm pp p (ms.map setOriginalIdM) (setOriginalIdsO rs)

/-- The `setOriginalIdsR` on an optional sub-resource list. -/
def setOriginalIdsO : Option (List ZgResource) → Option (List ZgResource)
  | none => none
  | some l => some (setOriginalIdsL l)

/-- The `setOriginalIdsR` on a resource list. -/
def setOriginalIdsL : List ZgResource → List ZgResource
  | [] => []
  | r :: rest => setOriginalIdsR r :: setOriginalIdsL rest

end

/-- The `setOriginalIdsR` on every resource of an `ZgApi`. -/
def setOriginalIdsApi (api : ZgApi) : ZgApi :=
  { api with resources := setOriginalIdsL api.resources }

/-- The canonical path `update_resource_paths` assigns to a resource named
`nm` with parent path `pp` (update.rs:350-353). -/
def expPath (service_name nm : String) (pp : Option String) : String :=
  match pp with
  | some x => x ++ "." ++ nm
  | none => service_name ++ "." ++ nm

/-- The parent path `update_resource_paths` assigns (update.rs:340-347):
the inherited parent path if present, otherwise the service name joined
with the inferred ancestor chain, or none when the chain is empty. -/
def updParentPath (s v nm : String) (ms : List ZgMethod)
    (ip : Option String) : Option String :=
  ip.orElse fun _ =>
    if (buildParentResources s v nm ms).isEmpty then none
    else some (joinDot (s :: buildParentResources s v nm ms))

mutual

/-- Canonical-form invariant of the trees produced by
`update_resource_paths`: the stored path agrees with the parent path and
name, every method id is the path joined with the method name, a parentless
resource has an empty inferred ancestor chain, and every child records this
resource's path as its parent path. -/
def GoodR (s v : String) : ZgResource → Prop
  | .mk nm pp p ms rs =>
    (pp = none → buildParentResources s v nm ms = []) ∧
    p = some (expPath s nm pp) ∧
    (∀ m ∈ ms, m.id = expPath s nm pp ++ "." ++ m.name) ∧
    GoodO s v (expPath s nm pp) rs

/-- The `GoodR` for an optional child list under a parent with path `p`. -/
def GoodO (s v p : String) : Option (List ZgResource) → Prop
  | none => True
  | some l => GoodL s v p l

/-- The `GoodR` for each child in a list, each linked to the parent path `p`. -/
def GoodL (s v p : String) : List ZgResource → Prop
  | [] => True
  | c :: rest => (c.parent_path = some p ∧ GoodR s v c) ∧ GoodL s v p rest

end

mutual

/-- All methods of a resource subtree, in traversal order. -/
def allMethodsR : ZgResource → List ZgMethod
  | .mk _ _ _ ms rs => ms ++ allMethodsO rs

/-- All methods under an optional sub-resource list. -/
def allMethodsO : Option (List ZgResource) → List ZgMethod
  | none => []
  | some l => allMethodsL l

/-- All methods under each resource of a list. -/
def allMethodsL : List ZgResource → List ZgMethod
  | [] => []
  | r :: rest => allMethodsR r ++ allMethodsL rest

end

/-- All methods of an `ZgApi`'s resource forest. -/
def allMethodsApi (api : ZgApi) : List ZgMethod :=
  allMethodsL api.resources

-- ---------------------------------------------------------------------
-- Theorems
-- ---------------------------------------------------------------------

/-- C1: the code's `find_resource` matches on a raw string suffix, not on a
dot-delimited boundary: querying `clusters` against a tree whose only
resource has canonical path `zclusters` returns that resource, although the
suffix does not start at position 0 nor immediately after a `.`. -/
theorem c1_raw_suffix_overmatch :
    findResource "x:v1" [zclustersRes] "clusters" = .ok zclustersRes ∧
    specDotDelimitedSuffix "zclusters" "clusters" = false := by
  exact ⟨rfl, by decide⟩

/-- Auxiliary: a worklist whose single pending resource can never be placed
into an empty tree keeps being re-queued; the loop never terminates for any
amount of fuel. -/
theorem insertLoop_orphan (c : ZgResource) :
    ∀ fuel : Nat, insertLoop fuel [] [c] = none := by
  intro fuel
  induction fuel with
  | zero => rfl
  | succ n ih => exact ih

/-- C2: on an input whose inferred parent path matches no node of the final
tree, the reassembly worklist loop of `rebuild_hierarchy` never terminates:
for every iteration bound the loop is still running, and no
structural-inconsistency error exists in the code. -/
theorem c2_reassembly_loop_diverges :
    ∀ fuel : Nat, rebuildHierarchy fuel orphanBigqueryApi = none := by
  intro fuel
  induction fuel with
  | zero => rfl
  | succ n ih => exact ih

/-- C7: on `container:v1`, with the two `clusters` resources at paths
`container.projects.locations.clusters` and
`container.projects.zones.clusters` (in either traversal order),
`findResource` with suffix `clusters` returns the regional
`locations.clusters` resource. -/
theorem c7_container_prefers_regional :
    findResource "container:v1" [regionalClustersRes, zonalClustersRes]
      "clusters" = .ok regionalClustersRes ∧
    findResource "container:v1" [zonalClustersRes, regionalClustersRes]
      "clusters" = .ok regionalClustersRes := by
  exact ⟨rfl, rfl⟩

/-- Every branch of `select_resource` (the per-service strategies and the
default) returns one of the given candidates when the candidate list is
non-empty. -/
theorem selectResource_mem (api_id resource_path : String)
    (found : List ZgResource) (h : found ≠ []) :
    ∃ r ∈ found, selectResource api_id resource_path found = some r := by
  unfold selectResource
  by_cases hlen : found.length ≤ 1
  · rw [if_pos hlen]
    match found, h with
    | r :: rest, _ => exact ⟨r, List.mem_cons_self r rest, rfl⟩
  · rw [if_neg hlen]
    have hhead : ∃ r ∈ found, found.head? = some r := by
      match found, h with
      | r :: rest, _ => exact ⟨r, List.mem_cons_self r rest, rfl⟩
    have hlast : ∃ r ∈ found, found.getLast? = some r := by
      refine ⟨found.getLast h, List.getLast_mem h, ?_⟩
      rw [List.getLast?_eq_getLast found h]
    split
    · unfold selectResourceContainer
      cases hf : found.find? fun r =>
          sContainsSub (pathD r) "container.projects.locations.clusters" with
      | some r =>
        exact ⟨r, List.mem_of_find?_eq_some hf, rfl⟩
      | none =>
        obtain ⟨r, hr, he⟩ := hhead
        exact ⟨r, hr, he⟩
    · unfold selectResourceDataflow
      split
      · cases hf : found.find? fun r => sContainsSub (pathD r) "locations" with
        | some r =>
          exact ⟨r, List.mem_of_find?_eq_some hf, rfl⟩
        | none =>
          obtain ⟨r, hr, he⟩ := hlast
          exact ⟨r, hr, he⟩
      · cases hf : found.find? fun r =>
            sContainsSub (pathD r) "locations.snapshots" with
        | some r =>
          exact ⟨r, List.mem_of_find?_eq_some hf, rfl⟩
        | none =>
          obtain ⟨r, hr, he⟩ := hlast
          exact ⟨r, hr, he⟩
    · unfold selectResourceSpanner
      cases hf : found.find? fun r =>
          sContainsSub (pathD r) "instances.operations" with
      | some r =>
        exact ⟨r, List.mem_of_find?_eq_some hf, rfl⟩
      | none =>
        obtain ⟨r, hr, he⟩ := hlast
        exact ⟨r, hr, he⟩
    · exact hlast

/-- C8: `find_resource` returns the `ResourceNotFound` error naming the
requested path suffix exactly when the depth-first traversal collects no
resource whose canonical path ends with that suffix. -/
theorem c8_resource_not_found_iff (api_id resource_path : String)
    (resources : List ZgResource) :
    (findResource api_id resources resource_path =
      .error (.resourceNotFound resource_path api_id)) ↔
    collectFoundL resource_path resources = [] := by
  unfold findResource
  cases hfound : collectFoundL resource_path resources with
  | nil => simp
  | cons a rest =>
    obtain ⟨x, _, hsel⟩ :=
      selectResource_mem api_id resource_path (a :: rest) (by simp)
    simp [hsel]

/-- C9: on a non-empty candidate list (of path-carrying resources, as
`find_resource` always produces), resource selection returns exactly one
element of the given list — never a fabricated resource and never no
result — and consequently `find_resource` can never return the
`SelectionFailed` error. -/
theorem c9_selection_total (api_id resource_path q : String)
    (found rs : List ZgResource) (h : found ≠ [])
    (hp : ∀ r ∈ found, r.path.isSome) :
    (∃ r ∈ found, selectResource api_id resource_path found = some r) ∧
    findResource api_id rs q ≠ .error (.selectionFailed q) := by
  refine ⟨selectResource_mem api_id resource_path found h, ?_⟩
  unfold findResource
  cases hfound : collectFoundL q rs with
  | nil => simp
  | cons a rest =>
    obtain ⟨x, _, hsel⟩ := selectResource_mem api_id q (a :: rest) (by simp)
    simp [hsel]

/-- Witness for C9 at a concrete candidate list and a concrete empty tree. -/
theorem c9_selection_total_witness :
    (∃ r ∈ [regionalClustersRes],
      selectResource "anyapi:v1" "clusters" [regionalClustersRes] = some r) ∧
    findResource "anyapi:v1" [] "clusters" ≠
      .error (.selectionFailed "clusters") :=
  c9_selection_total "anyapi:v1" "clusters" "clusters" [regionalClustersRes]
    [] (by simp)
    (by intro r hr; rw [List.mem_singleton] at hr; subst hr; rfl)

/-- Decomposition of the `merge` step: when the first same-path sibling is `e`,
`mergeIntoFirst` extends exactly `e`'s methods with the grafted resource's
methods and leaves every other sibling untouched. -/
theorem mergeIntoFirst_append (pre post : List ZgResource) (e c : ZgResource)
    (hpre : ∀ x ∈ pre, x.path ≠ c.path) (he : e.path = c.path) :
    mergeIntoFirst (pre ++ e :: post) c =
      some (pre ++ .mk e.name e.parent_path e.path (e.methods ++ c.methods)
        e.resources :: post) := by
  induction pre with
  | nil => simp [mergeIntoFirst, he]
  | cons a pre ih =>
    have ha : a.path ≠ c.path := hpre a (List.mem_cons_self a pre)
    have ih' := ih fun x hx => hpre x (List.mem_cons_of_mem a hx)
    simp [mergeIntoFirst, ha, ih']

/-- C6: grafting a pending resource under a parent that already has a child
with the same canonical path merges the grafted resource's methods into
that child (the child's method list becomes the concatenation of both
method lists) and adds no duplicate node: the parent's child list keeps
exactly one node in that position and all other children unchanged. -/
theorem c6_merge_on_graft (nm : String) (ppp pth : Option String)
    (ms : List ZgMethod) (pre post : List ZgResource) (e c : ZgResource)
    (hpar : pth = c.parent_path)
    (hpre : ∀ x ∈ pre, x.path ≠ c.path)
    (he : e.path = c.path) :
    insertChildResource [.mk nm ppp pth ms (some (pre ++ e :: post))] c =
      some [.mk nm ppp pth ms
        (some (pre ++ .mk e.name e.parent_path e.path
          (e.methods ++ c.methods) e.resources :: post))] := by
  unfold insertChildResource
  rw [if_pos hpar]
  simp [mergeIntoFirst_append pre post e c hpre he]

/-- Witness for C6: the two `instances` resources with methods `get` and
`performDiskShrink` end up as a single `instances` node carrying both
methods (the scenario of `test_insert_child_resource_merge_methods_instances`). -/
theorem c6_merge_on_graft_witness :
    insertChildResource [.mk "projects" none (some "projects") [] (some [])]
        sqlInstances1 =
      some [.mk "projects" none (some "projects") [] (some [sqlInstances1])] ∧
    insertChildResource
        [.mk "projects" none (some "projects") [] (some [sqlInstances1])]
        sqlInstances2 =
      some [.mk "projects" none (some "projects") []
        (some [.mk "instances" (some "projects") (some "projects.instances")
          (sqlInstances1.methods ++ sqlInstances2.methods) none])] :=
  ⟨rfl,
    c6_merge_on_graft "projects" none (some "projects") [] [] []
      sqlInstances1 sqlInstances2 rfl
      (by intro x hx; exact absurd hx (List.not_mem_nil x)) rfl⟩

/-- C5: `update_resource_paths` rewrites every method of a resource so that
the new `original_id` is exactly the `id` the method had immediately before
the rewrite, and the new `id` is the resource's new canonical path joined
with a dot to the method's name. -/
theorem c5_method_id_rewrite (service_name version : String)
    (ip : Option String) (r : ZgResource) (i : Nat)
    (h : i < r.methods.length) :
    ∃ hu : i < (updateResource service_name version ip r).methods.length,
      ((updateResource service_name version ip r).methods.get
          ⟨i, hu⟩).original_id = some ((r.methods.get ⟨i, h⟩).id) ∧
      ((updateResource service_name version ip r).methods.get ⟨i, hu⟩).id =
        pathD (updateResource service_name version ip r) ++ "." ++
          (r.methods.get ⟨i, h⟩).name := by
  cases r with
  | mk nm pp p ms rs =>
    have hu : i < (updateResource service_name version ip
        (.mk nm pp p ms rs)).methods.length := by
      simpa [updateResource, ZgResource.methods] using h
    refine ⟨hu, ?_, ?_⟩
    · simp [updateResource, ZgResource.methods, List.get_eq_getElem,
        List.getElem_map]
    · simp [updateResource, ZgResource.methods, ZgResource.path, pathD,
        List.get_eq_getElem, List.getElem_map]

/-- Witness for C5 on the concrete flat bigquery `datasets` resource. -/
theorem c5_method_id_rewrite_witness :
    0 < bqDatasetsRes.methods.length ∧
    ∃ hu : 0 < (updateResource "bigquery" "v2" none bqDatasetsRes).methods.length,
      ((updateResource "bigquery" "v2" none bqDatasetsRes).methods.get
          ⟨0, hu⟩).original_id =
        some ((bqDatasetsRes.methods.get ⟨0, by decide⟩).id) ∧
      ((updateResource "bigquery" "v2" none bqDatasetsRes).methods.get
          ⟨0, hu⟩).id =
        pathD (updateResource "bigquery" "v2" none bqDatasetsRes) ++ "." ++
          (bqDatasetsRes.methods.get ⟨0, by decide⟩).name :=
  ⟨by decide,
    c5_method_id_rewrite "bigquery" "v2" none bqDatasetsRes 0 (by decide)⟩

/-- C3 counterexample: the pipeline output is not a function of the raw
document alone.  The same document — the two method-entry lists are
permutations of each other, standing for two hash-map iteration orders of
the same method map — yields two different finished trees, because the
Normalizer computes a resource's canonical path from whichever method is
enumerated first. -/
theorem c3_order_counterexample :
    List.Perm [("get", rawMethodA), ("list", rawMethodB)]
      [("list", rawMethodB), ("get", rawMethodA)] ∧
    extractApi 0 (rawContainerDoc [("get", rawMethodA), ("list", rawMethodB)]) ≠
      extractApi 0 (rawContainerDoc [("list", rawMethodB), ("get", rawMethodA)]) := by
  constructor
  · exact List.Perm.swap _ _ _
  · intro h
    exact absurd
      (congrArg (fun o => o.map fun a => a.resources.map ZgResource.path) h)
      (by decide)

/-- C3 (amended): the Normalizer's canonical-path computation is
independent of the method-map enumeration order whenever every method of
the resource yields the same dotted id prefix (the well-formed case); the
pipeline as a whole is a pure function only of the document together with
its enumeration orders. -/
theorem c3_normalizer_order_independent (service_name resource_name : String)
    (pp : Option String) (subs : List (String × RawResource))
    (ms ms' : List (String × RawMethod)) (prefixPath : String)
    (hperm : ms.Perm ms')
    (hsame : ∀ e ∈ ms, joinDot (splitChar '.' e.2.id).dropLast = prefixPath) :
    (convertResource service_name resource_name (.mk ms subs) pp).path =
      (convertResource service_name resource_name (.mk ms' subs) pp).path := by
  cases ms with
  | nil =>
    have h2 : ms' = [] := List.Perm.eq_nil hperm.symm
    subst h2
    rfl
  | cons a as =>
    cases ms' with
    | nil => exact absurd (List.Perm.eq_nil hperm) (by simp)
    | cons b bs =>
      have ha : joinDot (splitChar '.' a.2.id).dropLast = prefixPath :=
        hsame a (List.mem_cons_self a as)
      have hb : joinDot (splitChar '.' b.2.id).dropLast = prefixPath :=
        hsame b (hperm.symm.subset (List.mem_cons_self b bs))
      simp only [convertResource, convertMethod, ZgResource.path,
        List.map_cons, List.head?_cons]
      rw [ha, hb]

/-- Witness for the amended C3: two enumeration orders of a two-method
resource whose ids share the prefix `container.projects.res` produce the
same canonical path. -/
theorem c3_normalizer_order_independent_witness :
    List.Perm
      [("get", ({ id := "container.projects.res.get", http_method := "GET"
                  path := "v1/projects/res", flat_path := none } : RawMethod)),
       ("list", ({ id := "container.projects.res.list", http_method := "GET"
                   path := "v1/projects/res", flat_path := none } : RawMethod))]
      [("list", ({ id := "container.projects.res.list", http_method := "GET"
                   path := "v1/projects/res", flat_path := none } : RawMethod)),
       ("get", ({ id := "container.projects.res.get", http_method := "GET"
                  path := "v1/projects/res", flat_path := none } : RawMethod))] ∧
    (convertResource "container" "res"
        (.mk [("get", { id := "container.projects.res.get"
                        http_method := "GET", path := "v1/projects/res"
                        flat_path := none }),
              ("list", { id := "container.projects.res.list"
                         http_method := "GET", path := "v1/projects/res"
                         flat_path := none })] []) none).path =
      (convertResource "container" "res"
        (.mk [("list", { id := "container.projects.res.list"
                         http_method := "GET", path := "v1/projects/res"
                         flat_path := none }),
              ("get", { id := "container.projects.res.get"
                        http_method := "GET", path := "v1/projects/res"
                        flat_path := none })] []) none).path :=
  ⟨List.Perm.swap _ _ _,
    c3_normalizer_order_independent "container" "res" none [] _ _
      "container.projects.res" (List.Perm.swap _ _ _) (by decide)⟩

/-- One-step reduction of `updateResource` on a constructor, with the
let-bound parent path and canonical path named. -/
theorem updateResource_mk (s v : String) (ip : Option String) (nm : String)
    (pp p : Option String) (ms : List ZgMethod)
    (rs : Option (List ZgResource)) :
    updateResource s v ip (.mk nm pp p ms rs) =
      .mk nm (updParentPath s v nm ms ip)
        (some (expPath s nm (updParentPath s v nm ms ip)))
        (ms.map fun m =>
          { m with
            original_id := some m.id
            id := expPath s nm (updParentPath s v nm ms ip) ++ "." ++ m.name })
        (updateForest s v (expPath s nm (updParentPath s v nm ms ip)) rs) :=
  rfl

/-- An absent computed parent path means the inferred ancestor chain was
empty (and the inherited parent path was absent). -/
theorem updParentPath_eq_none {s v nm : String} {ms : List ZgMethod}
    {ip : Option String} (h : updParentPath s v nm ms ip = none) :
    buildParentResources s v nm ms = [] := by
  cases ip with
  | some x => exact nomatch h
  | none =>
    by_cases hbe : (buildParentResources s v nm ms).isEmpty
    · exact List.isEmpty_iff.mp hbe
    · simp [updParentPath, hbe] at h

/-- The `build_parent_resources` reads only the methods' `flat_path`s, so any
per-method rewrite preserving `flat_path` preserves the inferred chain. -/
theorem buildParentResources_map (s v nm : String) (ms : List ZgMethod)
    (f : ZgMethod → ZgMethod) (hf : ∀ m, (f m).flat_path = m.flat_path) :
    buildParentResources s v nm (ms.map f) = buildParentResources s v nm ms := by
  have h1 : (ms.map f).map (fun m => m.flat_path) =
      ms.map (fun m => m.flat_path) := by
    rw [List.map_map]
    exact List.map_congr_left fun m _ => hf m
  unfold buildParentResources
  rw [h1]

mutual

/-- The function `update_resource_paths` establishes the canonical-form invariant on
every resource it outputs. -/
theorem goodR_update (s v : String) (ip : Option String) :
    (r : ZgResource) → GoodR s v (updateResource s v ip r)
  | .mk nm pp p ms rs => by
    rw [updateResource_mk]
    refine ⟨?_, rfl, ?_, ?_⟩
    · intro h0
      have hbp := buildParentResources_map s v nm ms
        (fun m =>
          { m with
            original_id := some m.id
            id := expPath s nm (updParentPath s v nm ms ip) ++ "." ++ m.name })
        (fun m => rfl)
      rw [hbp]
      exact updParentPath_eq_none h0
    · intro m hm
      obtain ⟨m₀, _, rfl⟩ := List.mem_map.mp hm
      rfl
    · exact goodO_update s v (expPath s nm (updParentPath s v nm ms ip)) rs

/-- The `goodR_update` for an optional sub-resource list. -/
theorem goodO_update (s v p : String) :
    (o : Option (List ZgResource)) → GoodO s v p (updateForest s v p o)
  | none => trivial
  | some l => goodL_update s v p l

/-- The `goodR_update` for each child of a sub-resource list, with the parent
link recorded. -/
theorem goodL_update (s v p : String) :
    (l : List ZgResource) → GoodL s v p (updateList s v p l)
  | [] => trivial
  | c :: rest =>
    ⟨⟨by cases c; rfl, goodR_update s v (some p) c⟩,
      goodL_update s v p rest⟩

end

mutual

/-- A resource already in canonical form is a fixed point of
`update_resource_paths` except that every method's `original_id` is
overwritten with its current `id`. -/
theorem update_fix_R (s v : String) :
    (r : ZgResource) → GoodR s v r →
      updateResource s v r.parent_path r = setOriginalIdsR r
  | .mk nm pp p ms rs => fun h => by
    obtain ⟨h1, h2, h3, h4⟩ := h
    subst h2
    rw [show (ZgResource.mk nm pp (some (expPath s nm pp)) ms rs).parent_path
        = pp from rfl]
    rw [updateResource_mk]
    have hpp : updParentPath s v nm ms pp = pp := by
      cases pp with
      | some x => rfl
      | none => simp [updParentPath, h1 rfl]
    rw [hpp]
    rw [show setOriginalIdsR (.mk nm pp (some (expPath s nm pp)) ms rs) =
      .mk nm pp (some (expPath s nm pp)) (ms.map setOriginalIdM)
        (setOriginalIdsO rs) from rfl]
    rw [List.map_congr_left fun m hm => ?_, update_fix_O s v (expPath s nm pp) rs h4]
    have hid := h3 m hm
    cases m
    simp only [ZgMethod.mk.injEq] at hid ⊢
    simp [setOriginalIdM, hid]

/-- The `update_fix_R` for an optional sub-resource list. -/
theorem update_fix_O (s v p : String) :
    (o : Option (List ZgResource)) → GoodO s v p o →
      updateForest s v p o = setOriginalIdsO o
  | none => fun _ => rfl
  | some l => fun h => by
    show some (updateList s v p l) = some (setOriginalIdsL l)
    rw [update_fix_L s v p l h]

/-- The `update_fix_R` for each child of a sub-resource list. -/
theorem update_fix_L (s v p : String) :
    (l : List ZgResource) → GoodL s v p l →
      updateList s v p l = setOriginalIdsL l
  | [] => fun _ => rfl
  | c :: rest => fun h => by
    obtain ⟨⟨hlink, hcg⟩, hrest⟩ := h
    show updateResource s v (some p) c :: updateList s v p rest =
      setOriginalIdsR c :: setOriginalIdsL rest
    have h1 := update_fix_R s v c hcg
    rw [hlink] at h1
    rw [h1, update_fix_L s v p rest hrest]

end

/-- The predicate `GoodL` is closed under list concatenation. -/
theorem GoodL_append (s v p : String) :
    ∀ (a b : List ZgResource), GoodL s v p a → GoodL s v p b →
      GoodL s v p (a ++ b)
  | [], _, _, hb => hb
  | _ :: as, b, ha, hb => ⟨ha.1, GoodL_append s v p as b ha.2 hb⟩

/-- Merging a canonical-form resource into the first same-path sibling
preserves the canonical-form invariant of the sibling list. -/
theorem merge_preserves_goodL (s v q : String) :
    ∀ (subs : List ZgResource) (c : ZgResource) (merged : List ZgResource),
      GoodL s v q subs → GoodR s v c →
      mergeIntoFirst subs c = some merged → GoodL s v q merged
  | [], _, _, _, _, h => nomatch h
  | .mk nm pp p ms rs :: rest, c, merged, hg, hc, h => by
    obtain ⟨⟨hlink, hrg⟩, hrest⟩ := hg
    by_cases hpath : (ZgResource.mk nm pp p ms rs).path = c.path
    · rw [show mergeIntoFirst (ZgResource.mk nm pp p ms rs :: rest) c =
          some (ZgResource.mk nm pp p (ms ++ c.methods) rs :: rest) from by
        simp only [mergeIntoFirst]
        rw [if_pos hpath]
        rfl] at h
      obtain rfl := Option.some.inj h
      obtain ⟨g1, g2, g3, g4⟩ := hrg
      refine ⟨⟨hlink, ?_, g2, ?_, g4⟩, hrest⟩
      · intro hnone
        rw [hnone] at hlink
        exact nomatch hlink
      · intro m hm
        rcases List.mem_append.mp hm with hms | hmc
        · exact g3 m hms
        · cases c with
          | mk cnm cpp cp cms crs =>
            obtain ⟨c1, c2, c3, c4⟩ := hc
            have hexp : expPath s nm pp = expPath s cnm cpp := by
              have := hpath
              rw [show (ZgResource.mk nm pp p ms rs).path = p from rfl,
                show (ZgResource.mk cnm cpp cp cms crs).path = cp from rfl]
                at this
              rw [g2, c2] at this
              exact Option.some.inj this
            rw [hexp]
            exact c3 m hmc
    · rw [show mergeIntoFirst (ZgResource.mk nm pp p ms rs :: rest) c =
          (mergeIntoFirst rest c).map (ZgResource.mk nm pp p ms rs :: ·) from by
        simp only [mergeIntoFirst]
        rw [if_neg hpath]] at h
      obtain ⟨rest', h2, rfl⟩ := Option.map_eq_some'.mp h
      exact ⟨⟨hlink, hrg⟩,
        merge_preserves_goodL s v q rest c rest' hrest hc h2⟩

/-- Grafting a canonical-form resource under a matched parent node (merge
or append) yields a canonical-form parent node again. -/
theorem goodR_graft (s v : String) (nm : String) (pp pth : Option String)
    (ms : List ZgMethod) (rs : Option (List ZgResource)) (c : ZgResource)
    (hrg : GoodR s v (.mk nm pp pth ms rs)) (hc : GoodR s v c)
    (h1 : pth = c.parent_path) :
    GoodR s v (.mk nm pp pth ms
      (some ((mergeIntoFirst (rs.getD []) c).getD (rs.getD [] ++ [c])))) := by
  obtain ⟨g1, g2, g3, g4⟩ := hrg
  refine ⟨g1, g2, g3, ?_⟩
  have hsubs : GoodL s v (expPath s nm pp) (rs.getD []) := by
    cases rs with
    | none => trivial
    | some l0 => exact g4
  cases hm : mergeIntoFirst (rs.getD []) c with
  | some merged =>
    exact merge_preserves_goodL s v (expPath s nm pp) (rs.getD []) c merged
      hsubs hc hm
  | none =>
    refine GoodL_append s v (expPath s nm pp) (rs.getD []) [c] hsubs
      ⟨⟨?_, hc⟩, trivial⟩
    rw [← h1]
    exact g2

/-- The function `insert_child_resource` preserves the canonical-form invariant of a
linked sibling list when the inserted resource is canonical. -/
theorem insert_preserves_goodL (s v : String) :
    ∀ (l : List ZgResource) (c : ZgResource) (p : String)
      (l' : List ZgResource),
      GoodL s v p l → GoodR s v c → insertChildResource l c = some l' →
      GoodL s v p l'
  | [], _, _, _, _, _, h => nomatch h
  | .mk nm pp pth ms rs :: rest, c, p, l', hg, hc, h => by
    obtain ⟨⟨hlink, hrg⟩, hrest⟩ := hg
    by_cases h1 : pth = c.parent_path
    · rw [show insertChildResource (ZgResource.mk nm pp pth ms rs :: rest) c =
          some (ZgResource.mk nm pp pth ms
            (some ((mergeIntoFirst (rs.getD []) c).getD
              (rs.getD [] ++ [c]))) :: rest) from by
        rw [insertChildResource.eq_def]
        simp only []
        rw [if_pos h1]] at h
      obtain rfl := Option.some.inj h
      exact ⟨⟨hlink, goodR_graft s v nm pp pth ms rs c hrg hc h1⟩, hrest⟩
    · have hmap : ∀ rest', insertChildResource rest c = some rest' →
          GoodL s v p (ZgResource.mk nm pp pth ms rs :: rest') :=
        fun rest' h2 => ⟨⟨hlink, hrg⟩,
          insert_preserves_goodL s v rest c p rest' hrest hc h2⟩
      cases rs with
      | none =>
        rw [show insertChildResource
            (ZgResource.mk nm pp pth ms none :: rest) c =
            (insertChildResource rest c).map
              (ZgResource.mk nm pp pth ms none :: ·) from by
          rw [insertChildResource.eq_def]
          simp only []
          rw [if_neg h1]] at h
        obtain ⟨rest', h2, rfl⟩ := Option.map_eq_some'.mp h
        exact hmap rest' h2
      | some children =>
        cases pth with
        | none =>
          rw [show insertChildResource
              (ZgResource.mk nm pp none ms (some children) :: rest) c =
              (insertChildResource rest c).map
                (ZgResource.mk nm pp none ms (some children) :: ·) from by
            rw [insertChildResource.eq_def]
            simp only []
            rw [if_neg h1]] at h
          obtain ⟨rest', h2, rfl⟩ := Option.map_eq_some'.mp h
          exact hmap rest' h2
        | some rp =>
          by_cases h3 : (match c.parent_path with
              | some q => sStartsWith q rp
              | none => false) = true
          · rw [show insertChildResource
                (ZgResource.mk nm pp (some rp) ms (some children) :: rest) c =
                (match insertChildResource children c with
                 | some children' =>
                   some (ZgResource.mk nm pp (some rp) ms
                     (some children') :: rest)
                 | none =>
                   (insertChildResource rest c).map
                     (ZgResource.mk nm pp (some rp) ms
                       (some children) :: ·)) from by
              rw [insertChildResource.eq_def]
              simp only []
              rw [if_neg h1, if_pos h3]] at h
            cases hrec : insertChildResource children c with
            | some children' =>
              rw [hrec] at h
              obtain rfl := Option.some.inj h
              obtain ⟨g1, g2, g3, g4⟩ := hrg
              exact ⟨⟨hlink, g1, g2, g3,
                insert_preserves_goodL s v children c (expPath s nm pp)
                  children' g4 hc hrec⟩, hrest⟩
            | none =>
              rw [hrec] at h
              obtain ⟨rest', h2, rfl⟩ := Option.map_eq_some'.mp h
              exact hmap rest' h2
          · rw [show insertChildResource
                (ZgResource.mk nm pp (some rp) ms (some children) :: rest) c =
                (insertChildResource rest c).map
                  (ZgResource.mk nm pp (some rp) ms (some children) :: ·)
                from by
              rw [insertChildResource.eq_def]
              simp only []
              rw [if_neg h1, if_neg h3]] at h
            obtain ⟨rest', h2, rfl⟩ := Option.map_eq_some'.mp h
            exact hmap rest' h2

/-- Running `insert_child_resource` on the top-level forest keeps every node in
canonical form and leaves the top-level parent paths unchanged. -/
theorem insert_preserves_top (s v : String) :
    ∀ (l : List ZgResource) (c : ZgResource) (l' : List ZgResource),
      (∀ r ∈ l, GoodR s v r) → GoodR s v c →
      insertChildResource l c = some l' →
      (∀ r ∈ l', GoodR s v r) ∧
        l'.map ZgResource.parent_path = l.map ZgResource.parent_path
  | [], _, _, _, _, h => nomatch h
  | .mk nm pp pth ms rs :: rest, c, l', hg, hc, h => by
    have hhd : GoodR s v (.mk nm pp pth ms rs) :=
      hg _ (List.mem_cons_self _ _)
    have hrest : ∀ r ∈ rest, GoodR s v r :=
      fun r hr => hg r (List.mem_cons_of_mem _ hr)
    by_cases h1 : pth = c.parent_path
    · rw [show insertChildResource (ZgResource.mk nm pp pth ms rs :: rest) c =
          some (ZgResource.mk nm pp pth ms
            (some ((mergeIntoFirst (rs.getD []) c).getD
              (rs.getD [] ++ [c]))) :: rest) from by
        rw [insertChildResource.eq_def]
        simp only []
        rw [if_pos h1]] at h
      obtain rfl := Option.some.inj h
      refine ⟨?_, rfl⟩
      intro r hr
      rcases List.mem_cons.mp hr with rfl | hr2
      · exact goodR_graft s v nm pp pth ms rs c hhd hc h1
      · exact hrest r hr2
    · have hmap : ∀ rest', insertChildResource rest c = some rest' →
          (∀ r ∈ ZgResource.mk nm pp pth ms rs :: rest', GoodR s v r) ∧
          ((ZgResource.mk nm pp pth ms rs :: rest').map
              ZgResource.parent_path =
            (ZgResource.mk nm pp pth ms rs :: rest).map
              ZgResource.parent_path) := by
        intro rest' h2
        obtain ⟨ha, hb⟩ := insert_preserves_top s v rest c rest' hrest hc h2
        constructor
        · intro r hr
          rcases List.mem_cons.mp hr with rfl | hr2
          · exact hhd
          · exact ha r hr2
        · rw [List.map_cons, List.map_cons, hb]
      cases rs with
      | none =>
        rw [show insertChildResource
            (ZgResource.mk nm pp pth ms none :: rest) c =
            (insertChildResource rest c).map
              (ZgResource.mk nm pp pth ms none :: ·) from by
          rw [insertChildResource.eq_def]
          simp only []
          rw [if_neg h1]] at h
        obtain ⟨rest', h2, rfl⟩ := Option.map_eq_some'.mp h
        exact hmap rest' h2
      | some children =>
        cases pth with
        | none =>
          rw [show insertChildResource
              (ZgResource.mk nm pp none ms (some children) :: rest) c =
              (insertChildResource rest c).map
                (ZgResource.mk nm pp none ms (some children) :: ·) from by
            rw [insertChildResource.eq_def]
            simp only []
            rw [if_neg h1]] at h
          obtain ⟨rest', h2, rfl⟩ := Option.map_eq_some'.mp h
          exact hmap rest' h2
        | some rp =>
          by_cases h3 : (match c.parent_path with
              | some q => sStartsWith q rp
              | none => false) = true
          · rw [show insertChildResource
                (ZgResource.mk nm pp (some rp) ms (some children) :: rest) c =
                (match insertChildResource children c with
                 | some children' =>
                   some (ZgResource.mk nm pp (some rp) ms
                     (some children') :: rest)
                 | none =>
                   (insertChildResource rest c).map
                     (ZgResource.mk nm pp (some rp) ms
                       (some children) :: ·)) from by
              rw [insertChildResource.eq_def]
              simp only []
              rw [if_neg h1, if_pos h3]] at h
            cases hrec : insertChildResource children c with
            | some children' =>
              rw [hrec] at h
              obtain rfl := Option.some.inj h
              obtain ⟨g1, g2, g3, g4⟩ := hhd
              refine ⟨?_, rfl⟩
              intro r hr
              rcases List.mem_cons.mp hr with rfl | hr2
              · exact ⟨g1, g2, g3,
                  insert_preserves_goodL s v children c (expPath s nm pp)
                    children' g4 hc hrec⟩
              · exact hrest r hr2
            | none =>
              rw [hrec] at h
              obtain ⟨rest', h2, rfl⟩ := Option.map_eq_some'.mp h
              exact hmap rest' h2
          · rw [show insertChildResource
                (ZgResource.mk nm pp (some rp) ms (some children) :: rest) c =
                (insertChildResource rest c).map
                  (ZgResource.mk nm pp (some rp) ms (some children) :: ·)
                from by
              rw [insertChildResource.eq_def]
              simp only []
              rw [if_neg h1, if_neg h3]] at h
            obtain ⟨rest', h2, rfl⟩ := Option.map_eq_some'.mp h
            exact hmap rest' h2

/-- The function `setOriginalIdsL` is the elementwise map of `setOriginalIdsR`. -/
theorem setOriginalIdsL_map : ∀ l : List ZgResource,
    setOriginalIdsL l = l.map setOriginalIdsR
  | [] => rfl
  | r :: rest => by
    rw [show setOriginalIdsL (r :: rest) =
      setOriginalIdsR r :: setOriginalIdsL rest from rfl,
      setOriginalIdsL_map rest, List.map_cons]

/-- The function `setOriginalIdsR` does not change a resource's parent path. -/
theorem setOriginalIdsR_parent_path (r : ZgResource) :
    (setOriginalIdsR r).parent_path = r.parent_path := by
  cases r
  rfl

/-- The reassembly loop keeps every top-level node in canonical form with
an absent parent path, provided it starts that way and all pending
resources are canonical. -/
theorem loop_preserves_top (s v : String) :
    ∀ (fuel : Nat) (tree ws tree' : List ZgResource),
      (∀ r ∈ tree, GoodR s v r) → (∀ r ∈ tree, r.parent_path = none) →
      (∀ c ∈ ws, GoodR s v c) →
      insertLoop fuel tree ws = some tree' →
      (∀ r ∈ tree', GoodR s v r) ∧ (∀ r ∈ tree', r.parent_path = none) := by
  intro fuel
  induction fuel with
  | zero =>
    intro tree ws tree' hg hn _ h
    cases ws with
    | nil =>
      obtain rfl := Option.some.inj h
      exact ⟨hg, hn⟩
    | cons w ws2 => exact nomatch h
  | succ n ih =>
    intro tree ws tree' hg hn hw h
    cases ws with
    | nil =>
      obtain rfl := Option.some.inj h
      exact ⟨hg, hn⟩
    | cons w ws2 =>
      rw [show insertLoop (n + 1) tree (w :: ws2) =
          (match insertChildResource tree
              ((w :: ws2).getLast (List.cons_ne_nil w ws2)) with
           | some tree2 => insertLoop n tree2 ((w :: ws2).dropLast)
           | none => insertLoop n tree
               (((w :: ws2).getLast (List.cons_ne_nil w ws2)) ::
                 (w :: ws2).dropLast)) from rfl] at h
      have hcmem : (w :: ws2).getLast (List.cons_ne_nil w ws2) ∈ w :: ws2 :=
        List.getLast_mem _
      have hrest : ∀ c2 ∈ (w :: ws2).dropLast, GoodR s v c2 :=
        fun c2 hc2 => hw c2 ((List.dropLast_prefix _).subset hc2)
      cases hins : insertChildResource tree
          ((w :: ws2).getLast (List.cons_ne_nil w ws2)) with
      | some tree2 =>
        rw [hins] at h
        obtain ⟨hg2, hmapeq⟩ :=
          insert_preserves_top s v tree _ tree2 hg (hw _ hcmem) hins
        have hn2 : ∀ r ∈ tree2, r.parent_path = none := by
          intro r hr
          have hmem : r.parent_path ∈ tree2.map ZgResource.parent_path :=
            List.mem_map_of_mem _ hr
          rw [hmapeq] at hmem
          obtain ⟨r0, hr0, heq⟩ := List.mem_map.mp hmem
          rw [← heq]
          exact hn r0 hr0
        exact ih tree2 _ tree' hg2 hn2 hrest h
      | none =>
        rw [hins] at h
        refine ih tree _ tree' hg hn ?_ h
        intro c2 hc2
        rcases List.mem_cons.mp hc2 with rfl | hc3
        · exact hw _ hcmem
        · exact hrest c2 hc3

/-- C4 counterexample: `rebuild_hierarchy` is not strictly idempotent on
the applicability-list service `bigquery:v2`: a second rebuild of the first
rebuild's output produces a different tree, because the `datasets.list`
method's `original_id` is overwritten with the first run's rewritten id. -/
theorem c4_not_strictly_idempotent :
    rebuildHierarchy 10 bqTestApi = some bqRebuilt ∧
    rebuildHierarchy 10 bqRebuilt = some bqRebuiltTwice ∧
    bqRebuiltTwice ≠ bqRebuilt := by
  refine ⟨rfl, rfl, ?_⟩
  intro h
  exact absurd
    (congrArg (fun a => a.resources.map fun r =>
      (r.resources.getD []).map fun r2 =>
        r2.methods.map fun m => m.original_id) h)
    (by decide)

/-- C4 (amended): the Hierarchy Rebuilder is idempotent up to the
`originalId` field: whenever a rebuild succeeds, rebuilding its output
again succeeds (with any fuel, the worklist being empty) and returns the
same tree except that every method's `originalId` is overwritten with its
current (first-run) `id`; resources, paths, parent paths, method ids and
names are all unchanged. -/
theorem c4_idempotent_up_to_original_id (fuel g : Nat) (api api' : ZgApi)
    (h : rebuildHierarchy fuel api = some api') :
    rebuildHierarchy g api' = some (setOriginalIdsApi api') := by
  unfold rebuildHierarchy at h
  cases hsplit : splitOnce ':' api.id with
  | none =>
    rw [hsplit] at h
    exact nomatch h
  | some sv =>
    obtain ⟨s, v⟩ := sv
    rw [hsplit] at h
    have h2 : (insertLoop fuel
        ((updateResourcePaths s v api).resources.filter fun r =>
          r.parent_path.isNone)
        ((updateResourcePaths s v api).resources.filter fun r =>
          r.parent_path.isSome)).map
        (fun t => { updateResourcePaths s v api with resources := t }) =
        some api' := h
    obtain ⟨t, hloop, happ⟩ := Option.map_eq_some'.mp h2
    have hgood1 : ∀ r ∈ (updateResourcePaths s v api).resources,
        GoodR s v r := by
      intro r hr
      rw [show (updateResourcePaths s v api).resources =
        api.resources.map (updateResource s v none) from rfl] at hr
      obtain ⟨r0, _, rfl⟩ := List.mem_map.mp hr
      exact goodR_update s v none r0
    have htopsGood : ∀ r ∈ (updateResourcePaths s v api).resources.filter
        (fun r => r.parent_path.isNone), GoodR s v r :=
      fun r hr => hgood1 r (List.mem_of_mem_filter hr)
    have htopsNone : ∀ r ∈ (updateResourcePaths s v api).resources.filter
        (fun r => r.parent_path.isNone), r.parent_path = none := by
      intro r hr
      have := List.of_mem_filter hr
      exact Option.isNone_iff_eq_none.mp (by simpa using this)
    have hchildGood : ∀ c ∈ (updateResourcePaths s v api).resources.filter
        (fun r => r.parent_path.isSome), GoodR s v c :=
      fun c hc => hgood1 c (List.mem_of_mem_filter hc)
    obtain ⟨htG, htN⟩ := loop_preserves_top s v fuel _ _ t
      htopsGood htopsNone hchildGood hloop
    subst happ
    have hfix : t.map (updateResource s v none) = setOriginalIdsL t := by
      rw [setOriginalIdsL_map]
      refine List.map_congr_left ?_
      intro r hr
      have h1 := update_fix_R s v r (htG r hr)
      rw [htN r hr] at h1
      exact h1
    unfold rebuildHierarchy
    rw [show ({ updateResourcePaths s v api with resources := t } :
      ZgApi).id = api.id from rfl, hsplit]
    have hres : (updateResourcePaths s v
        { updateResourcePaths s v api with resources := t }).resources =
        setOriginalIdsL t := hfix
    have hnone2 : ∀ r ∈ setOriginalIdsL t, r.parent_path = none := by
      intro r hr
      rw [setOriginalIdsL_map] at hr
      obtain ⟨r0, hr0, rfl⟩ := List.mem_map.mp hr
      rw [setOriginalIdsR_parent_path]
      exact htN r0 hr0
    have hfilter1 : (setOriginalIdsL t).filter
        (fun r => r.parent_path.isNone) = setOriginalIdsL t := by
      refine List.filter_eq_self.mpr ?_
      intro r hr
      simp [hnone2 r hr]
    have hfilter2 : (setOriginalIdsL t).filter
        (fun r => r.parent_path.isSome) = [] := by
      refine List.filter_eq_nil_iff.mpr ?_
      intro r hr
      simp [hnone2 r hr]
    show (insertLoop g
        ((updateResourcePaths s v
          { updateResourcePaths s v api with resources := t }).resources.filter
          fun r => r.parent_path.isNone)
        ((updateResourcePaths s v
          { updateResourcePaths s v api with resources := t }).resources.filter
          fun r => r.parent_path.isSome)).map
        (fun t2 => { updateResourcePaths s v
          { updateResourcePaths s v api with resources := t } with
            resources := t2 }) =
      some (setOriginalIdsApi
        { updateResourcePaths s v api with resources := t })
    rw [hres, hfilter1, hfilter2]
    rw [show insertLoop g (setOriginalIdsL t) [] =
      some (setOriginalIdsL t) from by cases g <;> rfl]
    rfl

/-- Witness for the amended C4: rebuilding the concrete rebuilt bigquery
tree again (with zero fuel: the worklist is empty) returns the same tree
with every `original_id` overwritten by the current id. -/
theorem c4_idempotent_witness :
    rebuildHierarchy 0 bqRebuilt = some (setOriginalIdsApi bqRebuilt) :=
  c4_idempotent_up_to_original_id 10 0 bqTestApi bqRebuilt rfl

/-- The function `allMethodsL` distributes over list concatenation. -/
theorem allMethodsL_append : ∀ a b : List ZgResource,
    allMethodsL (a ++ b) = allMethodsL a ++ allMethodsL b
  | [], _ => rfl
  | r :: rest, b => by
    rw [List.cons_append,
      show allMethodsL (r :: (rest ++ b)) =
        allMethodsR r ++ allMethodsL (rest ++ b) from rfl,
      allMethodsL_append rest b,
      show allMethodsL (r :: rest) = allMethodsR r ++ allMethodsL rest
        from rfl,
      List.append_assoc]

/-- A method of a resource's own list is a method of its subtree. -/
theorem mem_allMethodsR_of_mem_methods {m : ZgMethod} (c : ZgResource)
    (h : m ∈ c.methods) : m ∈ allMethodsR c := by
  cases c
  exact List.mem_append_left _ h

/-- A method of a member resource's subtree is a method of the forest. -/
theorem mem_allMethodsL_of_mem {m : ZgMethod} :
    ∀ (l : List ZgResource) (c : ZgResource), c ∈ l →
      m ∈ allMethodsR c → m ∈ allMethodsL l
  | [], _, hc, _ => absurd hc (List.not_mem_nil _)
  | r :: rest, c, hc, hm => by
    rw [show allMethodsL (r :: rest) = allMethodsR r ++ allMethodsL rest
      from rfl]
    rcases List.mem_cons.mp hc with rfl | hc2
    · exact List.mem_append_left _ hm
    · exact List.mem_append_right _ (mem_allMethodsL_of_mem rest c hc2 hm)

/-- The function `allMethodsL` is monotone along the sublist order. -/
theorem allMethodsL_subset_of_sublist {l₁ l₂ : List ZgResource}
    (h : l₁.Sublist l₂) : ∀ m ∈ allMethodsL l₁, m ∈ allMethodsL l₂ := by
  induction h with
  | slnil => exact fun m hm => absurd hm (List.not_mem_nil m)
  | cons a _ ih =>
    intro m hm
    rw [show allMethodsL (a :: _) = allMethodsR a ++ allMethodsL _ from rfl]
    exact List.mem_append_right _ (ih m hm)
  | cons₂ a h ih =>
    intro m hm
    rw [show allMethodsL (a :: _) = allMethodsR a ++ allMethodsL _ from rfl]
      at hm ⊢
    rcases List.mem_append.mp hm with h1 | h2
    · exact List.mem_append_left _ h1
    · exact List.mem_append_right _ (ih m h2)

mutual

/-- Every method in the output of `update_resource_paths` descends from an
input method: its `original_id` is that method's id and its name is
unchanged. -/
theorem allMethods_update_R (s v : String) (ip : Option String) :
    (r : ZgResource) → ∀ m ∈ allMethodsR (updateResource s v ip r),
      ∃ m₀ ∈ allMethodsR r, m.original_id = some m₀.id ∧ m.name = m₀.name
  | .mk nm pp p ms rs => by
    intro m hm
    rw [updateResource_mk] at hm
    rw [show allMethodsR (ZgResource.mk nm (updParentPath s v nm ms ip)
        (some (expPath s nm (updParentPath s v nm ms ip)))
        (ms.map fun m =>
          { m with
            original_id := some m.id
            id := expPath s nm (updParentPath s v nm ms ip) ++ "." ++ m.name })
        (updateForest s v (expPath s nm (updParentPath s v nm ms ip)) rs)) =
      (ms.map fun m =>
        { m with
          original_id := some m.id
          id := expPath s nm (updParentPath s v nm ms ip) ++ "." ++ m.name })
        ++ allMethodsO
          (updateForest s v (expPath s nm (updParentPath s v nm ms ip)) rs)
      from rfl] at hm
    rw [show allMethodsR (ZgResource.mk nm pp p ms rs) =
      ms ++ allMethodsO rs from rfl]
    rcases List.mem_append.mp hm with h1 | h2
    · obtain ⟨m₀, hm₀, rfl⟩ := List.mem_map.mp h1
      exact ⟨m₀, List.mem_append_left _ hm₀, rfl, rfl⟩
    · obtain ⟨m₀, hm₀, hprop⟩ := allMethods_update_O s v
        (expPath s nm (updParentPath s v nm ms ip)) rs m h2
      exact ⟨m₀, List.mem_append_right _ hm₀, hprop⟩

/-- The `allMethods_update_R` for an optional sub-resource list. -/
theorem allMethods_update_O (s v p : String) :
    (o : Option (List ZgResource)) →
      ∀ m ∈ allMethodsO (updateForest s v p o),
        ∃ m₀ ∈ allMethodsO o, m.original_id = some m₀.id ∧ m.name = m₀.name
  | none => fun m hm => absurd hm (List.not_mem_nil m)
  | some l => fun m hm => allMethods_update_L s v p l m hm

/-- The `allMethods_update_R` for each child of a sub-resource list. -/
theorem allMethods_update_L (s v p : String) :
    (l : List ZgResource) → ∀ m ∈ allMethodsL (updateList s v p l),
      ∃ m₀ ∈ allMethodsL l, m.original_id = some m₀.id ∧ m.name = m₀.name
  | [] => fun m hm => absurd hm (List.not_mem_nil m)
  | r :: rest => by
    intro m hm
    rw [show allMethodsL (updateList s v p (r :: rest)) =
      allMethodsR (updateResource s v (some p) r) ++
        allMethodsL (updateList s v p rest) from rfl] at hm
    rw [show allMethodsL (r :: rest) = allMethodsR r ++ allMethodsL rest
      from rfl]
    rcases List.mem_append.mp hm with h1 | h2
    · obtain ⟨m₀, hm₀, hprop⟩ := allMethods_update_R s v (some p) r m h1
      exact ⟨m₀, List.mem_append_left _ hm₀, hprop⟩
    · obtain ⟨m₀, hm₀, hprop⟩ := allMethods_update_L s v p rest m h2
      exact ⟨m₀, List.mem_append_right _ hm₀, hprop⟩

end

/-- The `allMethods_update_R` for a top-level forest (inherited parent absent). -/
theorem allMethods_update_map (s v : String) :
    ∀ (l : List ZgResource),
      ∀ m ∈ allMethodsL (l.map (updateResource s v none)),
        ∃ m₀ ∈ allMethodsL l, m.original_id = some m₀.id ∧ m.name = m₀.name
  | [] => fun m hm => absurd hm (List.not_mem_nil m)
  | r :: rest => by
    intro m hm
    rw [List.map_cons,
      show allMethodsL (updateResource s v none r ::
        rest.map (updateResource s v none)) =
        allMethodsR (updateResource s v none r) ++
          allMethodsL (rest.map (updateResource s v none)) from rfl] at hm
    rw [show allMethodsL (r :: rest) = allMethodsR r ++ allMethodsL rest
      from rfl]
    rcases List.mem_append.mp hm with h1 | h2
    · obtain ⟨m₀, hm₀, hprop⟩ := allMethods_update_R s v none r m h1
      exact ⟨m₀, List.mem_append_left _ hm₀, hprop⟩
    · obtain ⟨m₀, hm₀, hprop⟩ := allMethods_update_map s v rest m h2
      exact ⟨m₀, List.mem_append_right _ hm₀, hprop⟩

/-- Methods after a merge step come from the old siblings or from the
merged resource's own method list. -/
theorem allMethods_merge : ∀ (subs : List ZgResource) (c : ZgResource)
    (merged : List ZgResource), mergeIntoFirst subs c = some merged →
    ∀ m ∈ allMethodsL merged, m ∈ allMethodsL subs ∨ m ∈ allMethodsR c
  | [], _, _, h => nomatch h
  | .mk nm pp p ms rs :: rest, c, merged, h => by
    by_cases hpath : (ZgResource.mk nm pp p ms rs).path = c.path
    · rw [show mergeIntoFirst (ZgResource.mk nm pp p ms rs :: rest) c =
          some (ZgResource.mk nm pp p (ms ++ c.methods) rs :: rest) from by
        simp only [mergeIntoFirst]
        rw [if_pos hpath]
        rfl] at h
      obtain rfl := Option.some.inj h
      intro m hm
      rw [show allMethodsL (ZgResource.mk nm pp p (ms ++ c.methods) rs :: rest)
        = ((ms ++ c.methods) ++ allMethodsO rs) ++ allMethodsL rest
        from rfl] at hm
      rw [show allMethodsL (ZgResource.mk nm pp p ms rs :: rest) =
        (ms ++ allMethodsO rs) ++ allMethodsL rest from rfl]
      rcases List.mem_append.mp hm with h1 | h2
      · rcases List.mem_append.mp h1 with h3 | h4
        · rcases List.mem_append.mp h3 with h5 | h6
          · exact Or.inl (List.mem_append_left _ (List.mem_append_left _ h5))
          · exact Or.inr (mem_allMethodsR_of_mem_methods c h6)
        · exact Or.inl (List.mem_append_left _ (List.mem_append_right _ h4))
      · exact Or.inl (List.mem_append_right _ h2)
    · rw [show mergeIntoFirst (ZgResource.mk nm pp p ms rs :: rest) c =
          (mergeIntoFirst rest c).map (ZgResource.mk nm pp p ms rs :: ·)
          from by
        simp only [mergeIntoFirst]
        rw [if_neg hpath]] at h
      obtain ⟨rest', h2, rfl⟩ := Option.map_eq_some'.mp h
      intro m hm
      rw [show allMethodsL (ZgResource.mk nm pp p ms rs :: rest') =
        allMethodsR (ZgResource.mk nm pp p ms rs) ++ allMethodsL rest'
        from rfl] at hm
      rw [show allMethodsL (ZgResource.mk nm pp p ms rs :: rest) =
        allMethodsR (ZgResource.mk nm pp p ms rs) ++ allMethodsL rest
        from rfl]
      rcases List.mem_append.mp hm with h1 | h3
      · exact Or.inl (List.mem_append_left _ h1)
      · rcases allMethods_merge rest c rest' h2 m h3 with h4 | h5
        · exact Or.inl (List.mem_append_right _ h4)
        · exact Or.inr h5

/-- Methods after a graft step come from the old tree or from the grafted
resource's subtree. -/
theorem allMethods_insert : ∀ (l : List ZgResource) (c : ZgResource)
    (l' : List ZgResource), insertChildResource l c = some l' →
    ∀ m ∈ allMethodsL l', m ∈ allMethodsL l ∨ m ∈ allMethodsR c
  | [], _, _, h => nomatch h
  | .mk nm pp pth ms rs :: rest, c, l', h => by
    have hLcons : ∀ (x : Option (List ZgResource)),
        allMethodsL (ZgResource.mk nm pp pth ms x :: rest) =
          (ms ++ allMethodsO x) ++ allMethodsL rest := fun _ => rfl
    have hmapcase : ∀ rest', insertChildResource rest c = some rest' →
        ∀ m ∈ allMethodsL (ZgResource.mk nm pp pth ms rs :: rest'),
          m ∈ allMethodsL (ZgResource.mk nm pp pth ms rs :: rest) ∨
            m ∈ allMethodsR c := by
      intro rest' h2 m hm
      rw [show allMethodsL (ZgResource.mk nm pp pth ms rs :: rest') =
        (ms ++ allMethodsO rs) ++ allMethodsL rest' from rfl] at hm
      rw [hLcons rs]
      rcases List.mem_append.mp hm with h1 | h3
      · exact Or.inl (List.mem_append_left _ h1)
      · rcases allMethods_insert rest c rest' h2 m h3 with h4 | h5
        · exact Or.inl (List.mem_append_right _ h4)
        · exact Or.inr h5
    by_cases h1 : pth = c.parent_path
    · rw [show insertChildResource (ZgResource.mk nm pp pth ms rs :: rest) c =
          some (ZgResource.mk nm pp pth ms
            (some ((mergeIntoFirst (rs.getD []) c).getD
              (rs.getD [] ++ [c]))) :: rest) from by
        rw [insertChildResource.eq_def]
        simp only []
        rw [if_pos h1]] at h
      obtain rfl := Option.some.inj h
      intro m hm
      rw [hLcons (some ((mergeIntoFirst (rs.getD []) c).getD
        (rs.getD [] ++ [c])))] at hm
      rw [hLcons rs]
      have hsubsO : ∀ m2 : ZgMethod,
          m2 ∈ allMethodsL (rs.getD []) → m2 ∈ allMethodsO rs := by
        intro m2 hm2
        cases rs with
        | none => exact absurd hm2 (List.not_mem_nil m2)
        | some l0 => exact hm2
      rcases List.mem_append.mp hm with h2 | h3
      · rcases List.mem_append.mp h2 with h4 | h5
        · exact Or.inl (List.mem_append_left _ (List.mem_append_left _ h4))
        · -- h5 : m ∈ allMethodsO (some subs')
          cases hmerge : mergeIntoFirst (rs.getD []) c with
          | some mergedsubs =>
            rw [hmerge] at h5
            rcases allMethods_merge (rs.getD []) c mergedsubs hmerge m h5
              with h6 | h7
            · exact Or.inl (List.mem_append_left _
                (List.mem_append_right _ (hsubsO m h6)))
            · exact Or.inr h7
          | none =>
            rw [hmerge] at h5
            rw [show allMethodsO (some (((none : Option (List ZgResource))).getD
                (rs.getD [] ++ [c]))) =
              allMethodsL (rs.getD [] ++ [c]) from rfl,
              allMethodsL_append] at h5
            rcases List.mem_append.mp h5 with h6 | h7
            · exact Or.inl (List.mem_append_left _
                (List.mem_append_right _ (hsubsO m h6)))
            · rw [show allMethodsL [c] = allMethodsR c ++ [] from rfl,
                List.append_nil] at h7
              exact Or.inr h7
      · exact Or.inl (List.mem_append_right _ h3)
    · cases rs with
      | none =>
        rw [show insertChildResource
            (ZgResource.mk nm pp pth ms none :: rest) c =
            (insertChildResource rest c).map
              (ZgResource.mk nm pp pth ms none :: ·) from by
          rw [insertChildResource.eq_def]
          simp only []
          rw [if_neg h1]] at h
        obtain ⟨rest', h2, rfl⟩ := Option.map_eq_some'.mp h
        exact hmapcase rest' h2
      | some children =>
        cases pth with
        | none =>
          rw [show insertChildResource
              (ZgResource.mk nm pp none ms (some children) :: rest) c =
              (insertChildResource rest c).map
                (ZgResource.mk nm pp none ms (some children) :: ·) from by
            rw [insertChildResource.eq_def]
            simp only []
            rw [if_neg h1]] at h
          obtain ⟨rest', h2, rfl⟩ := Option.map_eq_some'.mp h
          exact hmapcase rest' h2
        | some rp =>
          by_cases h3 : (match c.parent_path with
              | some q => sStartsWith q rp
              | none => false) = true
          · rw [show insertChildResource
                (ZgResource.mk nm pp (some rp) ms (some children) :: rest) c =
                (match insertChildResource children c with
                 | some children' =>
                   some (ZgResource.mk nm pp (some rp) ms
                     (some children') :: rest)
                 | none =>
                   (insertChildResource rest c).map
                     (ZgResource.mk nm pp (some rp) ms
                       (some children) :: ·)) from by
              rw [insertChildResource.eq_def]
              simp only []
              rw [if_neg h1, if_pos h3]] at h
            cases hrec : insertChildResource children c with
            | some children' =>
              rw [hrec] at h
              obtain rfl := Option.some.inj h
              intro m hm
              rw [hLcons (some children')] at hm
              rw [hLcons (some children)]
              rcases List.mem_append.mp hm with h4 | h5
              · rcases List.mem_append.mp h4 with h6 | h7
                · exact Or.inl
                    (List.mem_append_left _ (List.mem_append_left _ h6))
                · rcases allMethods_insert children c children' hrec m h7
                    with h8 | h9
                  · exact Or.inl
                      (List.mem_append_left _ (List.mem_append_right _ h8))
                  · exact Or.inr h9
              · exact Or.inl (List.mem_append_right _ h5)
            | none =>
              rw [hrec] at h
              obtain ⟨rest', h2, rfl⟩ := Option.map_eq_some'.mp h
              exact hmapcase rest' h2
          · rw [show insertChildResource
                (ZgResource.mk nm pp (some rp) ms (some children) :: rest) c =
                (insertChildResource rest c).map
                  (ZgResource.mk nm pp (some rp) ms (some children) :: ·)
                from by
              rw [insertChildResource.eq_def]
              simp only []
              rw [if_neg h1, if_neg h3]] at h
            obtain ⟨rest', h2, rfl⟩ := Option.map_eq_some'.mp h
            exact hmapcase rest' h2

/-- Methods of the reassembled tree come from the initial top-level forest
or from some pending resource of the worklist. -/
theorem allMethods_loop :
    ∀ (fuel : Nat) (tree ws tree' : List ZgResource),
      insertLoop fuel tree ws = some tree' →
      ∀ m ∈ allMethodsL tree',
        m ∈ allMethodsL tree ∨ ∃ c ∈ ws, m ∈ allMethodsR c := by
  intro fuel
  induction fuel with
  | zero =>
    intro tree ws tree' h
    cases ws with
    | nil =>
      obtain rfl := Option.some.inj h
      exact fun m hm => Or.inl hm
    | cons w ws2 => exact nomatch h
  | succ n ih =>
    intro tree ws tree' h
    cases ws with
    | nil =>
      obtain rfl := Option.some.inj h
      exact fun m hm => Or.inl hm
    | cons w ws2 =>
      rw [show insertLoop (n + 1) tree (w :: ws2) =
          (match insertChildResource tree
              ((w :: ws2).getLast (List.cons_ne_nil w ws2)) with
           | some tree2 => insertLoop n tree2 ((w :: ws2).dropLast)
           | none => insertLoop n tree
               (((w :: ws2).getLast (List.cons_ne_nil w ws2)) ::
                 (w :: ws2).dropLast)) from rfl] at h
      have hcmem : (w :: ws2).getLast (List.cons_ne_nil w ws2) ∈ w :: ws2 :=
        List.getLast_mem _
      have hdropsub : (w :: ws2).dropLast ⊆ w :: ws2 :=
        (List.dropLast_prefix _).subset
      cases hins : insertChildResource tree
          ((w :: ws2).getLast (List.cons_ne_nil w ws2)) with
      | some tree2 =>
        rw [hins] at h
        intro m hm
        rcases ih tree2 _ tree' h m hm with h1 | ⟨c2, hc2, hm2⟩
        · rcases allMethods_insert tree _ tree2 hins m h1 with h3 | h4
          · exact Or.inl h3
          · exact Or.inr ⟨_, hcmem, h4⟩
        · exact Or.inr ⟨c2, hdropsub hc2, hm2⟩
      | none =>
        rw [hins] at h
        intro m hm
        rcases ih tree _ tree' h m hm with h1 | ⟨c2, hc2, hm2⟩
        · exact Or.inl h1
        · rcases List.mem_cons.mp hc2 with rfl | hc3
          · exact Or.inr ⟨_, hcmem, hm2⟩
          · exact Or.inr ⟨c2, hdropsub hc3, hm2⟩

/-- C10: after a successful hierarchy rebuild, every method of every
resource in the resulting tree has `originalId = Some` of the id a
pre-rebuild method of the same name carried: no method of a rebuilt
service retains `originalId = None`. -/
theorem c10_original_id_always_set (fuel : Nat) (api api' : ZgApi)
    (h : rebuildHierarchy fuel api = some api') :
    ∀ m ∈ allMethodsApi api', ∃ m₀ ∈ allMethodsApi api,
      m.original_id = some m₀.id ∧ m.name = m₀.name := by
  unfold rebuildHierarchy at h
  cases hsplit : splitOnce ':' api.id with
  | none =>
    rw [hsplit] at h
    exact nomatch h
  | some sv =>
    obtain ⟨s, v⟩ := sv
    rw [hsplit] at h
    have h2 : (insertLoop fuel
        ((updateResourcePaths s v api).resources.filter fun r =>
          r.parent_path.isNone)
        ((updateResourcePaths s v api).resources.filter fun r =>
          r.parent_path.isSome)).map
        (fun t => { updateResourcePaths s v api with resources := t }) =
        some api' := h
    obtain ⟨t, hloop, happ⟩ := Option.map_eq_some'.mp h2
    subst happ
    intro m hm
    have hm2 : m ∈ allMethodsL t := hm
    have hup : m ∈ allMethodsL
        (api.resources.map (updateResource s v none)) := by
      rcases allMethods_loop fuel _ _ t hloop m hm2 with h3 | ⟨c, hc, hmc⟩
      · exact allMethodsL_subset_of_sublist (List.filter_sublist _) m h3
      · exact allMethodsL_subset_of_sublist (List.filter_sublist _) m
          (mem_allMethodsL_of_mem _ c hc hmc)
    exact allMethods_update_map s v api.resources m hup

/-- Witness for C10 on the concrete bigquery rebuild, instantiated at the
rewritten `datasets.list` method of the rebuilt tree. -/
theorem c10_original_id_witness :
    ∃ m₀ ∈ allMethodsApi bqTestApi,
      ({ id := "bigquery.projects.datasets.list"
         original_id := some "bigquery.datasets.list"
         name := "list"
         flat_path := "projects/{projectsId}/datasets"
         http_method := "GET" } : ZgMethod).original_id = some m₀.id ∧
      ({ id := "bigquery.projects.datasets.list"
         original_id := some "bigquery.datasets.list"
         name := "list"
         flat_path := "projects/{projectsId}/datasets"
         http_method := "GET" } : ZgMethod).name = m₀.name :=
  c10_original_id_always_set 10 bqTestApi bqRebuilt rfl _ (by decide)
